import Mathlib

/-!
Verification development for the sieve bytecode engine
(`sieve-binary-code.c`, `sieve-interpreter.c`, `cmd-keep.c`).

The Code Buffer is modelled as a `List Nat` of bytes (each `< 256`; the
reader truncates with `% 256` exactly where the C code casts to
`unsigned char`).  Addresses are list indices.  Every decode function
returns a `RdRes`: `.ok value newAddress` models returning `TRUE` with the
cursor advanced, `.fail` models returning `FALSE`, and `.oob` marks the
places where the C code dereferences `_code[i]` at an index `i` that is
not below the declared buffer size — an out-of-bounds read of the raw
buffer, which has no in-model result.
-/

namespace Sieve

/-- Result of a bounds-checked decode: success with the decoded value and
the advanced address, failure (`FALSE` in C), or an out-of-bounds access
of the underlying buffer. -/
inductive RdRes (α : Type) where
  | ok (val : α) (addr : Nat)
  | fail
  | oob
deriving DecidableEq, Repr

/-- The byte at index `i`, as the C macro `ADDR_DATA_AT` reads it
(`(unsigned char) _code[i]`), usable only where the index is already
known to be in bounds. -/
def byteAt (code : List Nat) (i : Nat) : Nat :=
  code.getD i 0 % 256

/-- The byte at index `i` as an `unsigned char`, or `none` when the index
is outside the buffer: used to model the dereferences the C code performs
without a preceding bounds check. -/
def dataAt (code : List Nat) (i : Nat) : Option Nat :=
  (code[i]?).map (· % 256)

/-- The byte at index `i` reinterpreted as a `signed char`
(`ADDR_CODE_AT`), or `none` when the index is outside the buffer. -/
def codeAt (code : List Nat) (i : Nat) : Option Int :=
  (dataAt code i).map (fun b => if 128 ≤ b then (b : Int) - 256 else (b : Int))

/-! ## Binary writer (`sieve-binary-code.c`, emission functions)

Each C emit function appends to the block's buffer and returns the
address at which it started writing; in the model the returned address is
always the length of the buffer passed in, so the functions return just
the grown buffer. -/

/-- `sieve_binary_emit_data`: append raw bytes. -/
def sieve_binary_emit_data (block : List Nat) (data : List Nat) : List Nat :=
  block ++ data

/-- `sieve_binary_emit_byte`: append one byte. -/
def sieve_binary_emit_byte (block : List Nat) (b : Nat) : List Nat :=
  block ++ [b]

/-- `sieve_binary_update_data` / `buffer_write`: overwrite
`data.length` bytes starting at `addr`.  Per the design contract the
caller guarantees `addr + data.length ≤ block.length` (patches never
resize the buffer). -/
def sieve_binary_update_data (block : List Nat) (addr : Nat) (data : List Nat) : List Nat :=
  block.take addr ++ data ++ block.drop (addr + data.length)

/-- The four big-endian bytes `(char)(m >> 24), … , (char) m` that
`sieve_binary_emit_offset` / `sieve_binary_resolve_offset` write. -/
def be4 (m : Nat) : List Nat :=
  [m / 2 ^ 24 % 256, m / 2 ^ 16 % 256, m / 2 ^ 8 % 256, m % 256]

/-- `sieve_binary_emit_offset`: append a fixed 4-byte big-endian signed
offset (two's complement). -/
def sieve_binary_emit_offset (block : List Nat) (offset : Int) : List Nat :=
  block ++ be4 ((offset % (2 ^ 32 : Int)).toNat)

/-- `sieve_binary_resolve_offset`: overwrite the 4 bytes at `addr` with
`current_size - addr`, big-endian. -/
def sieve_binary_resolve_offset (block : List Nat) (addr : Nat) : List Nat :=
  sieve_binary_update_data block addr (be4 (block.length - addr))

/-- The loop of `sieve_binary_emit_integer` that pushes the remaining
high 7-bit groups of `m` in front of `acc`, continuation bit `0x80` set
(the C code sets the bits in a separate pass over `buffer`; the result is
the same list of bytes).  `fuel ≥ m` makes the recursion structural; the
loop itself stops as soon as `m = 0`. -/
def vlqAux : Nat → Nat → List Nat → List Nat
  | _, 0, acc => acc
  | 0, _ + 1, acc => acc
  | fuel + 1, m + 1, acc =>
      vlqAux fuel ((m + 1) / 128) (((m + 1) % 128 + 128) :: acc)

/-- The byte encoding produced by `sieve_binary_emit_integer v`: the low
7-bit group last (no continuation bit), the higher groups in front of it,
most significant first, each with the `0x80` continuation bit. -/
def vlq (v : Nat) : List Nat :=
  vlqAux (v / 128) (v / 128) [v % 128]

/-- `sieve_binary_emit_integer`: append the variable-length base-128
encoding of `v`.  (The C stack buffer has `sizeof(sieve_number_t) + 1`
slots, enough for every representable `v` at the widths used by the
code.) -/
def sieve_binary_emit_integer (block : List Nat) (v : Nat) : List Nat :=
  block ++ vlq v

/-- `sieve_binary_emit_string` (via `sieve_binary_emit_dynamic_data`):
`emit_integer` of the length, then the raw bytes, then one `0x00`
terminator byte. -/
def sieve_binary_emit_string (block : List Nat) (s : List Nat) : List Nat :=
  block ++ vlq s.length ++ s ++ [0]

/-! ## Binary reader (`sieve-binary-code.c`, code retrieval) -/

/-- `sieve_binary_read_byte`: one byte, unsigned; fails if no byte
remains. -/
def sieve_binary_read_byte (code : List Nat) (addr : Nat) : RdRes Nat :=
  if 1 ≤ code.length - addr then .ok (byteAt code addr) (addr + 1) else .fail

/-- `sieve_binary_read_code`: one byte reinterpreted as signed (opcode
tags); fails if no byte remains. -/
def sieve_binary_read_code (code : List Nat) (addr : Nat) : RdRes Int :=
  if 1 ≤ code.length - addr then
    .ok (if 128 ≤ byteAt code addr then (byteAt code addr : Int) - 256 else (byteAt code addr : Int))
      (addr + 1)
  else .fail

/-- `sieve_binary_read_offset`: fails unless at least 4 bytes remain;
decodes a big-endian 4-byte value and reinterprets it as a signed
32-bit `int`. -/
def sieve_binary_read_offset (code : List Nat) (addr : Nat) : RdRes Int :=
  if 4 ≤ code.length - addr then
    let offs : Nat :=
      ((byteAt code addr * 256 + byteAt code (addr + 1)) * 256 + byteAt code (addr + 2)) * 256 +
        byteAt code (addr + 3)
    .ok (if offs < 2 ^ 31 then (offs : Int) else (offs : Int) - 2 ^ 32) (addr + 4)
  else .fail

/-- One step of accumulation in `sieve_binary_read_integer`:
`*int_r |= b & 0x7F; *int_r <<= 7;` on an `8 * S`-bit unsigned. -/
def riStep (S : Nat) (acc b : Nat) : Nat :=
  ((acc ||| b % 128) <<< 7) % 2 ^ (8 * S)

/-- The `while` loop of `sieve_binary_read_integer`.  The loop condition
itself dereferences `_code[*address]`, so evaluating it with the cursor
at or past the end of the buffer is an out-of-bounds access (`.oob`).
Inside the loop, `ADDR_BYTES_LEFT(address) > 0` holds whenever the
condition was readable in bounds, so only the `bits > 0` guard remains.
`fuel` starts at the number of bytes left, which bounds the number of
iterations (each consumes one byte). -/
def riLoop (S : Nat) (code : List Nat) : Nat → Nat → Nat → Int → RdRes Nat
  | 0, _, _, _ => .oob
  | fuel + 1, addr, acc, bits =>
      match dataAt code addr with
      | none => .oob
      | some b =>
          if 128 ≤ b then
            if 0 < bits then riLoop S code fuel (addr + 1) (riStep S acc b) (bits - 7)
            else .fail
          else .ok (acc ||| b % 128) (addr + 1)

/-- `sieve_binary_read_integer`, with the width of `sieve_number_t`
(which is typedef'd outside the given sources) as the parameter `S` =
`sizeof(sieve_number_t)`, so `bits` starts at `8 * S`. -/
def sieve_binary_read_integer (S : Nat) (code : List Nat) (addr : Nat) : RdRes Nat :=
  if code.length - addr = 0 then .fail
  else riLoop S code (code.length - addr) addr 0 (8 * S)

/-- Modelled from the spec: `sieve_binary_read_unsigned`, the length
decoder used by `sieve_binary_read_string`, is not among the given
sources; the spec says `read_string` first uses `read_integer` for the
length, into an `unsigned int` (4 bytes). -/
def sieve_binary_read_unsigned (code : List Nat) (addr : Nat) : RdRes Nat :=
  sieve_binary_read_integer 4 code addr

/-- `sieve_binary_read_string`: decode the length prefix, fail if
`strlen > ADDR_BYTES_LEFT`, take the payload, advance past it, then check
that the next byte is `0x00`.  That check (`ADDR_CODE_AT(address) != 0`)
has no preceding bounds check, so when exactly `strlen` bytes remained it
dereferences the byte at the buffer size — `.oob`. -/
def sieve_binary_read_string (code : List Nat) (addr : Nat) : RdRes (List Nat) :=
  match sieve_binary_read_unsigned code addr with
  | .oob => .oob
  | .fail => .fail
  | .ok strlen addr1 =>
      if strlen > code.length - addr1 then .fail
      else
        match codeAt code (addr1 + strlen) with
        | none => .oob
        | some t =>
            if t ≠ 0 then .fail
            else .ok ((code.drop addr1).take strlen) (addr1 + strlen + 1)

/-- `sieve_binary_read_extension`.  On entry `*offset_r` holds the base
offset; the function reads one byte `c`, stores it back through
`offset_r`, and resolves `c - base` against the binary's extension index
table only when `c ≥ base`.  The table lookup
(`sieve_binary_extension_get_by_index`, defined outside the given
sources) is passed in as `getByIndex`; `none` models an index that is not
registered in this binary.  The result pairs the raw byte with the
resolved extension (`none` = `NULL`). -/
def sieve_binary_read_extension (getByIndex : Nat → Option Nat) (code : List Nat)
    (addr : Nat) (base : Nat) : RdRes (Nat × Option Nat) :=
  match dataAt code addr with
  | none => .fail
  | some c =>
      if base ≤ c then
        match getByIndex (c - base) with
        | none => .fail
        | some e => .ok (c, some e) (addr + 1)
      else .ok (c, none) (addr + 1)

/-- `sieve_binary_read_extension_object`: with 0 objects return `none`;
with exactly 1 return it consuming no bytes; otherwise read a selector
byte (bounds-checked) and index into the table, failing on an
out-of-range selector. -/
def sieve_binary_read_extension_object (objs : List Nat) (code : List Nat)
    (addr : Nat) : Option (Nat × Nat) :=
  match objs with
  | [] => none
  | [x] => some (x, addr)
  | _ :: _ :: _ =>
      match dataAt code addr with
      | none => none
      | some c =>
          if objs.length ≤ c then none
          else (objs[c]?).map (fun o => (o, addr + 1))

/-! ## Interpreter (`sieve-interpreter.c`)

The interpreter owns a program counter, a `stopped` flag and a
`test_result` flag.  The Result collaborator is modelled by recording in
the state every "add keep action" call it receives (`keepCalls`), with
its accept/reject answer given by the program environment.  The opcode
registry (`sieve_operation_read` resolves a tag to an operation; defined
in `sieve-code.c`, outside the given sources) is modelled from the spec
as a fixed table of the operations this core uses: unconditional and
conditional jumps, stop, and keep. -/

/-- Interpreter execution state: program counter, stop flag, last test
result, plus the calls received so far by the external Result
collaborator's "add keep action" entry point. -/
structure MState where
  pc : Nat
  stopped : Bool
  test_result : Bool
  keepCalls : List (List Nat × Nat)
deriving DecidableEq, Repr

/-- The loaded binary and the external collaborators of one run: the
code block, the source-line record built at compile time (address of an
operation to its source line), and the Result collaborator's verdict on
an "add keep action" call. -/
structure Prog where
  code : List Nat
  srcLine : Nat → Nat
  acceptKeep : List Nat → Nat → Bool

/-- `sieve_interpreter_reset`: zero the PC, clear the stopped and
last-test flags (the per-run message/result bindings are cleared too;
extension contexts are kept). -/
def sieve_interpreter_reset (s : MState) : MState :=
  { s with pc := 0, stopped := false, test_result := false }

/-- `sieve_interpreter_program_jump`: capture `pc`, decode one 4-byte
offset operand (advancing the cursor to `pc + 4`), and test
`pc + offset <= code_size && pc + offset > 0` in `sieve_size_t`
arithmetic (modelled at 32 bits).  On a valid jump, set the PC to
`pc + offset` when `jump` is requested; otherwise leave it just past the
operand.  Returns the success flag and the resulting PC. -/
def sieve_interpreter_program_jump (code : List Nat) (pc : Nat) (jump : Bool) : Bool × Nat :=
  match sieve_binary_read_offset code pc with
  | .ok offset pc4 =>
      let cand : Nat := (((pc : Int) + offset) % (2 ^ 32 : Int)).toNat
      if cand ≤ code.length ∧ 0 < cand then (true, if jump then cand else pc4)
      else (false, pc4)
  | _ => (false, pc)

/-- Modelled from the spec: the end-of-optional-region sentinel and the
marker opening the optional-operand region; the concrete operand-id
values live in `sieve-code.h`, outside the given sources. -/
def OPT_MARKER : Nat := 1

/-- The scan over an open optional-operand region: collect side-effect
identifier bytes until the `0` sentinel; running off the end of the
buffer is a decode failure.  `fuel` starts at the number of bytes from
the region's start, which bounds the iterations. -/
def optLoop (code : List Nat) : Nat → Nat → List Nat → Option (List Nat × Nat)
  | 0, _, _ => none
  | fuel + 1, addr, acc =>
      match dataAt code addr with
      | none => none
      | some 0 => some (acc, addr + 1)
      | some (e + 1) => optLoop code fuel (addr + 1) (acc ++ [e + 1])

/-- Modelled from the spec: `sieve_interpreter_handle_optional_operands`
is not among the given sources.  The spec fixes its contract: consume the
optional-operand region collecting side effects; with no optional
operands present return an empty list and consume zero bytes; recognize
the sentinel that marks the end of the region; a decode failure inside
the region is a failure of the whole operation. -/
def sieve_interpreter_handle_optional_operands (code : List Nat) (addr : Nat) :
    Option (List Nat × Nat) :=
  match dataAt code addr with
  | none => some ([], addr)
  | some b =>
      if b = OPT_MARKER then optLoop code (code.length - addr) (addr + 1) []
      else some ([], addr)

/-- `cmd_keep_operation_execute` (`cmd-keep.c`): look up the source line
recorded for the operation's address, consume the optional operands
(side effects only), then call the Result collaborator's
"add keep action" with the collected side effects and that line; fail
exactly when the optional-operand decode fails or the collaborator
rejects the action. -/
def cmd_keep_operation_execute (P : Prog) (s : MState) (opAddr : Nat) : Option MState :=
  match sieve_interpreter_handle_optional_operands P.code s.pc with
  | none => none
  | some (slist, addr1) =>
      if P.acceptKeep slist (P.srcLine opAddr) then
        some { s with pc := addr1, keepCalls := s.keepCalls ++ [(slist, P.srcLine opAddr)] }
      else none

/-- Modelled from the spec: the opcode tags (`sieve-code.h` is outside
the given sources); the concrete values are immaterial, only their
distinctness matters. -/
def SIEVE_OPERATION_JMP : Int := 1

/-- Modelled from the spec: tag of the conditional jump taken when the
last test result is true. -/
def SIEVE_OPERATION_JMPTRUE : Int := 2

/-- Modelled from the spec: tag of the conditional jump taken when the
last test result is false. -/
def SIEVE_OPERATION_JMPFALSE : Int := 3

/-- Modelled from the spec: tag of the stop operation. -/
def SIEVE_OPERATION_STOP : Int := 4

/-- Tag of the keep operation (`SIEVE_OPERATION_KEEP`). -/
def SIEVE_OPERATION_KEEP : Int := 5

/-- The operations of this core. -/
inductive Op where
  | jmp
  | jmptrue
  | jmpfalse
  | stop
  | keep
deriving DecidableEq, Repr

/-- Modelled from the spec: the opcode registry consulted by
`sieve_operation_read` — a tag with no registered operation yields
`none` (an unknown/garbage tag). -/
def lookupOpcode (tag : Int) : Option Op :=
  if tag = SIEVE_OPERATION_JMP then some .jmp
  else if tag = SIEVE_OPERATION_JMPTRUE then some .jmptrue
  else if tag = SIEVE_OPERATION_JMPFALSE then some .jmpfalse
  else if tag = SIEVE_OPERATION_STOP then some .stop
  else if tag = SIEVE_OPERATION_KEEP then some .keep
  else none

/-- The execute hook of each operation.  `s.pc` sits just past the
operation's tag; `opAddr` is the address of the operation itself.  The
jump handlers call the jump primitive (the conditional ones decode the
offset either way and move the PC only on their condition, treating an
invalid jump as fatal); stop sets the `stopped` flag; keep is
`cmd_keep_operation_execute`. -/
def execOp (P : Prog) (op : Op) (s : MState) (opAddr : Nat) : Option MState :=
  match op with
  | .stop => some { s with stopped := true }
  | .jmp =>
      match sieve_interpreter_program_jump P.code s.pc true with
      | (true, pc1) => some { s with pc := pc1 }
      | (false, _) => none
  | .jmptrue =>
      match sieve_interpreter_program_jump P.code s.pc s.test_result with
      | (true, pc1) => some { s with pc := pc1 }
      | (false, _) => none
  | .jmpfalse =>
      match sieve_interpreter_program_jump P.code s.pc (! s.test_result) with
      | (true, pc1) => some { s with pc := pc1 }
      | (false, _) => none
  | .keep => cmd_keep_operation_execute P s opAddr

/-- `sieve_interpreter_execute_operation`: fetch one opcode tag via the
reader at the PC (advancing it past the tag); an unresolvable tag or a
read failure is a failure; otherwise run the operation's execute hook. -/
def sieve_interpreter_execute_operation (P : Prog) (s : MState) : Option MState :=
  match sieve_binary_read_code P.code s.pc with
  | .ok tag pc1 =>
      match lookupOpcode tag with
      | some op => execOp P op { s with pc := pc1 } s.pc
      | none => none
  | _ => none

/-- The `while` loop of `sieve_interpreter_run`: while
`!stopped && pc < code_size`, execute one operation; a failed execution
aborts the run immediately, reporting `false`; otherwise the loop exit is
a successful completion, reporting `true`.  `none` means the fuel ran out
before the loop exited. -/
def runLoop (P : Prog) : Nat → MState → Option (Bool × MState)
  | 0, _ => none
  | fuel + 1, s =>
      if s.stopped = false ∧ s.pc < P.code.length then
        match sieve_interpreter_execute_operation P s with
        | none => some (false, s)
        | some s1 => runLoop P fuel s1
      else some (true, s)

/-- `sieve_interpreter_run`: reset, bind the per-run collaborators, then
run the loop. -/
def sieve_interpreter_run (P : Prog) (fuel : Nat) (s : MState) : Option (Bool × MState) :=
  runLoop P fuel (sieve_interpreter_reset s)

/-- The dump hook of each operation decodes exactly the operand shape its
execute hook would (`cmd_keep_operation_dump` prints and consumes the
optional operands; the jump dumps decode their offset operand; stop has
no operands), without performing effects. -/
def dumpDecode (P : Prog) (op : Op) (s : MState) : Option MState :=
  match op with
  | .stop => some s
  | .jmp | .jmptrue | .jmpfalse =>
      match sieve_binary_read_offset P.code s.pc with
      | .ok _ pc4 => some { s with pc := pc4 }
      | _ => none
  | .keep =>
      match sieve_interpreter_handle_optional_operands P.code s.pc with
      | some (_, addr1) => some { s with pc := addr1 }
      | none => none

/-- `sieve_interpreter_dump_operation`: fetch the opcode tag and run the
operation's dump hook. -/
def sieve_interpreter_dump_operation (P : Prog) (s : MState) : Option MState :=
  match sieve_binary_read_code P.code s.pc with
  | .ok tag pc1 =>
      match lookupOpcode tag with
      | some op => dumpDecode P op { s with pc := pc1 }
      | none => none
  | _ => none

/-- The loop of `sieve_interpreter_dump_code`: while `pc < code_size`,
dump one operation; an unrecognized tag or failed decode reports the
binary corrupt (`false`) and stops. -/
def dumpLoop (P : Prog) : Nat → MState → Option (Bool × MState)
  | 0, _ => none
  | fuel + 1, s =>
      if s.pc < P.code.length then
        match sieve_interpreter_dump_operation P s with
        | none => some (false, s)
        | some s1 => dumpLoop P fuel s1
      else some (true, s)

/-! ## Helper lemmas on the variable-length integer encoding -/

/-- The continuation-marked groups emitted before the final group: the
base-128 digits of `m`, most significant first, each with `0x80` set. -/
def contDigits (m : Nat) : List Nat :=
  vlqAux m m []

theorem vlqAux_append :
    ∀ (fuel m : Nat) (acc : List Nat), vlqAux fuel m acc = vlqAux fuel m [] ++ acc := by
  intro fuel
  induction fuel with
  | zero =>
    intro m acc
    cases m <;> rfl
  | succ fuel ih =>
    intro m acc
    cases m with
    | zero => rfl
    | succ m =>
      rw [show vlqAux (fuel + 1) (m + 1) acc =
            vlqAux fuel ((m + 1) / 128) (((m + 1) % 128 + 128) :: acc) from rfl,
          show vlqAux (fuel + 1) (m + 1) [] =
            vlqAux fuel ((m + 1) / 128) [(m + 1) % 128 + 128] from rfl,
          ih ((m + 1) / 128) (((m + 1) % 128 + 128) :: acc),
          ih ((m + 1) / 128) [(m + 1) % 128 + 128]]
      simp

theorem vlqAux_fuel :
    ∀ (m f₁ f₂ : Nat) (acc : List Nat), m ≤ f₁ → m ≤ f₂ →
      vlqAux f₁ m acc = vlqAux f₂ m acc := by
  intro m
  induction m using Nat.strong_induction_on with
  | _ m ih =>
    intro f₁ f₂ acc h1 h2
    cases m with
    | zero => cases f₁ <;> cases f₂ <;> rfl
    | succ m =>
      obtain ⟨g₁, rfl⟩ : ∃ g, f₁ = g + 1 := ⟨f₁ - 1, by omega⟩
      obtain ⟨g₂, rfl⟩ : ∃ g, f₂ = g + 1 := ⟨f₂ - 1, by omega⟩
      have hd : (m + 1) / 128 < m + 1 := Nat.div_lt_self (by omega) (by omega)
      exact ih ((m + 1) / 128) hd g₁ g₂ _ (by omega) (by omega)

theorem contDigits_zero : contDigits 0 = [] := rfl

theorem contDigits_eq (m : Nat) (hm : 0 < m) :
    contDigits m = contDigits (m / 128) ++ [m % 128 + 128] := by
  obtain ⟨k, rfl⟩ : ∃ k, m = k + 1 := ⟨m - 1, by omega⟩
  have hd : (k + 1) / 128 < k + 1 := Nat.div_lt_self (by omega) (by omega)
  show vlqAux (k + 1) (k + 1) [] = _
  rw [show vlqAux (k + 1) (k + 1) ([] : List Nat) =
        vlqAux k ((k + 1) / 128) [(k + 1) % 128 + 128] from rfl,
      vlqAux_fuel ((k + 1) / 128) k ((k + 1) / 128) _ (by omega) (le_refl _),
      vlqAux_append]
  rfl

theorem vlq_eq (v : Nat) : vlq v = contDigits (v / 128) ++ [v % 128] := by
  unfold vlq
  rw [vlqAux_fuel (v / 128) (v / 128) (v / 128) _ (le_refl _) (le_refl _), vlqAux_append]
  rfl

theorem contDigits_mem :
    ∀ (m : Nat), ∀ b ∈ contDigits m, 128 ≤ b ∧ b < 256 := by
  intro m
  induction m using Nat.strong_induction_on with
  | _ m ih =>
    intro b hb
    cases Nat.eq_zero_or_pos m with
    | inl h0 =>
      subst h0
      rw [contDigits_zero] at hb
      simp at hb
    | inr hm =>
      rw [contDigits_eq m hm] at hb
      rcases List.mem_append.mp hb with h1 | h2
      · exact ih (m / 128) (Nat.div_lt_self hm (by omega)) b h1
      · have : b = m % 128 + 128 := by simpa using h2
        subst this
        have := Nat.mod_lt m (y := 128) (by omega)
        omega

theorem contDigits_length_le :
    ∀ (L m : Nat), m < 128 ^ L → (contDigits m).length ≤ L := by
  intro L
  induction L with
  | zero =>
    intro m hm
    have : m = 0 := by simpa using hm
    subst this
    simp [contDigits_zero]
  | succ L ih =>
    intro m hm
    cases Nat.eq_zero_or_pos m with
    | inl h0 => subst h0; simp [contDigits_zero]
    | inr hpos =>
      rw [contDigits_eq m hpos]
      have hdiv : m / 128 < 128 ^ L := by
        apply Nat.div_lt_of_lt_mul
        rw [pow_succ] at hm
        omega
      have := ih (m / 128) hdiv
      simp only [List.length_append, List.length_cons, List.length_nil]
      omega

theorem contDigits_pow_le :
    ∀ (m : Nat), 0 < m → 128 ^ (contDigits m).length ≤ 128 * m := by
  intro m
  induction m using Nat.strong_induction_on with
  | _ m ih =>
    intro hm
    rw [contDigits_eq m hm]
    simp only [List.length_append, List.length_cons, List.length_nil, Nat.zero_add]
    cases Nat.eq_zero_or_pos (m / 128) with
    | inl h0 =>
      rw [h0, contDigits_zero]
      simpa using Nat.le_mul_of_pos_right 128 hm
    | inr hpos =>
      have h1 := ih (m / 128) (Nat.div_lt_self hm (by omega)) hpos
      have h2 : 128 * (m / 128) ≤ m := by
        have := Nat.div_mul_le_self m 128
        omega
      calc 128 ^ ((contDigits (m / 128)).length + 1)
          = 128 ^ (contDigits (m / 128)).length * 128 := by rw [pow_succ]
        _ ≤ 128 * (m / 128) * 128 := by exact Nat.mul_le_mul_right _ h1
        _ ≤ m * 128 := Nat.mul_le_mul_right _ h2
        _ = 128 * m := Nat.mul_comm _ _

theorem foldl_contDigits (S : Nat) :
    ∀ (m : Nat), 128 * m < 2 ^ (8 * S) →
      (contDigits m).foldl (riStep S) 0 = 128 * m := by
  intro m
  induction m using Nat.strong_induction_on with
  | _ m ih =>
    intro hm
    cases Nat.eq_zero_or_pos m with
    | inl h0 => subst h0; simp [contDigits_zero]
    | inr hpos =>
      rw [contDigits_eq m hpos, List.foldl_append]
      have hd : m / 128 < m := Nat.div_lt_self hpos (by omega)
      have hle : 128 * (m / 128) ≤ m := by
        have := Nat.div_mul_le_self m 128
        omega
      have h1 : 128 * (m / 128) < 2 ^ (8 * S) := by
        have : m ≤ 128 * m := Nat.le_mul_of_pos_left m (by omega)
        omega
      rw [ih (m / 128) hd h1]
      show riStep S (128 * (m / 128)) (m % 128 + 128) = 128 * m
      unfold riStep
      have hmod : (m % 128 + 128) % 128 = m % 128 := by omega
      rw [hmod]
      have hor : 128 * (m / 128) ||| m % 128 = m := by
        have h7 : m % 128 < 2 ^ 7 := by
          have := Nat.mod_lt m (y := 128) (by omega)
          norm_num
          omega
        have heq := Nat.mul_add_lt_is_or h7 (m / 128)
        rw [show (2 : Nat) ^ 7 = 128 from by norm_num] at heq
        rw [← heq, Nat.div_add_mod]
      rw [hor, Nat.shiftLeft_eq]
      have : m * 2 ^ 7 = 128 * m := by ring
      rw [this, Nat.mod_eq_of_lt hm]

theorem dataAt_append (pre : List Nat) (b : Nat) (rest : List Nat) :
    dataAt (pre ++ b :: rest) pre.length = some (b % 256) := by
  unfold dataAt
  rw [List.getElem?_append_right (le_refl _)]
  simp

theorem riLoop_digits (S : Nat) :
    ∀ (ds : List Nat) (pre post : List Nat) (d fuel acc : Nat) (bits : Int),
      (∀ b ∈ ds, 128 ≤ b ∧ b < 256) → d < 128 →
      (∀ i : Nat, i < ds.length → 0 < bits - 7 * i) →
      ds.length + 1 ≤ fuel →
      riLoop S (pre ++ ds ++ d :: post) fuel pre.length acc bits =
        .ok (ds.foldl (riStep S) acc ||| d) (pre.length + (ds.length + 1)) := by
  intro ds
  induction ds with
  | nil =>
    intro pre post d fuel acc bits _ hd _ hfuel
    obtain ⟨f, rfl⟩ : ∃ f, fuel = f + 1 := ⟨fuel - 1, by simp at hfuel; omega⟩
    have hAt : dataAt (pre ++ [] ++ d :: post) pre.length = some d := by
      rw [show pre ++ [] ++ d :: post = pre ++ d :: post by simp, dataAt_append,
        Nat.mod_eq_of_lt (by omega)]
    simp only [riLoop, hAt]
    rw [if_neg (by omega)]
    rw [Nat.mod_eq_of_lt hd]
    rfl
  | cons b ds ih =>
    intro pre post d fuel acc bits hds hd hbits hfuel
    obtain ⟨f, rfl⟩ : ∃ f, fuel = f + 1 := ⟨fuel - 1, by simp at hfuel; omega⟩
    have hb := hds b (List.mem_cons_self b ds)
    have hAt : dataAt (pre ++ (b :: ds) ++ d :: post) pre.length = some b := by
      rw [show pre ++ (b :: ds) ++ d :: post = pre ++ b :: (ds ++ d :: post) by simp,
        dataAt_append, Nat.mod_eq_of_lt hb.2]
    simp only [riLoop, hAt]
    rw [if_pos hb.1, if_pos (by have := hbits 0 (by simp); simpa using this)]
    have hshape : pre ++ (b :: ds) ++ d :: post = (pre ++ [b]) ++ ds ++ d :: post := by simp
    have hlen : pre.length + 1 = (pre ++ [b]).length := by simp
    rw [hshape, hlen,
      ih (pre ++ [b]) post d f (riStep S acc b) (bits - 7) (fun c hc => hds c (by simp [hc]))
        hd
        (fun i hi => by
          have := hbits (i + 1) (by simp; omega)
          push_cast at this ⊢
          omega)
        (by simp at hfuel ⊢; omega)]
    simp only [List.length_append, List.length_cons, List.length_nil, List.foldl_cons]
    congr 1
    omega

/-- Round-trip core: decoding at the address where `emit_integer`'s bytes
begin, in any buffer that continues arbitrarily, yields the value back
with the cursor past the encoding. -/
theorem read_integer_emit (S v : Nat) (pre post : List Nat) (hv : v < 2 ^ (8 * S)) :
    sieve_binary_read_integer S (pre ++ vlq v ++ post) pre.length =
      .ok v (pre.length + (vlq v).length) := by
  have hvlq := vlq_eq v
  have hlen1 : 1 ≤ (vlq v).length := by rw [hvlq]; simp
  have hle : 128 * (v / 128) ≤ v := by
    have := Nat.div_mul_le_self v 128
    omega
  have hpos : 0 < v → v ≤ 128 * v := fun _ => Nat.le_mul_of_pos_left v (by omega)
  unfold sieve_binary_read_integer
  have hne : ¬((pre ++ vlq v ++ post).length - pre.length = 0) := by
    simp only [List.length_append]
    omega
  rw [if_neg hne]
  have hbits : ∀ i : Nat, i < (contDigits (v / 128)).length → 0 < (8 * S : Int) - 7 * i := by
    intro i hi
    cases Nat.eq_zero_or_pos (v / 128) with
    | inl h0 => rw [h0, contDigits_zero] at hi; simp at hi
    | inr hp =>
      have h1 : 128 ^ (contDigits (v / 128)).length ≤ 128 * (v / 128) :=
        contDigits_pow_le _ hp
      have h2 : 128 ^ (contDigits (v / 128)).length < 2 ^ (8 * S) := by omega
      have h3 : (2 : Nat) ^ (7 * (contDigits (v / 128)).length) < 2 ^ (8 * S) := by
        rw [pow_mul]
        norm_num at h2 ⊢
        exact h2
      have h4 : 7 * (contDigits (v / 128)).length < 8 * S :=
        (Nat.pow_lt_pow_iff_right (by omega)).mp h3
      omega
  rw [show pre ++ vlq v ++ post = pre ++ contDigits (v / 128) ++ (v % 128) :: post by
        rw [hvlq]; simp]
  rw [riLoop_digits S (contDigits (v / 128)) pre post (v % 128) _ 0 (8 * S)
        (contDigits_mem (v / 128)) (Nat.mod_lt v (by omega)) hbits
        (by simp only [List.length_append, List.length_cons]; omega)]
  rw [foldl_contDigits S (v / 128) (by omega)]
  have hor : 128 * (v / 128) ||| v % 128 = v := by
    have h7 : v % 128 < 2 ^ 7 := by
      have := Nat.mod_lt v (y := 128) (by omega)
      norm_num
      omega
    have heq := Nat.mul_add_lt_is_or h7 (v / 128)
    rw [show (2 : Nat) ^ 7 = 128 from by norm_num] at heq
    rw [← heq, Nat.div_add_mod]
  rw [hor]
  congr 1
  rw [hvlq]
  simp

theorem foldl_msb_contDigits :
    ∀ (m acc : Nat),
      (contDigits m).foldl (fun a b => a * 128 + b % 128) acc =
        acc * 128 ^ (contDigits m).length + m := by
  intro m
  induction m using Nat.strong_induction_on with
  | _ m ih =>
    intro acc
    cases Nat.eq_zero_or_pos m with
    | inl h0 => subst h0; simp [contDigits_zero]
    | inr hm =>
      rw [contDigits_eq m hm, List.foldl_append, List.length_append,
        ih (m / 128) (Nat.div_lt_self hm (by omega)) acc]
      simp only [List.foldl_cons, List.foldl_nil, List.length_cons, List.length_nil]
      have h1 : (m % 128 + 128) % 128 = m % 128 := by omega
      rw [h1, pow_succ]
      have h2 : 128 * (m / 128) + m % 128 = m := Nat.div_add_mod m 128
      ring_nf
      omega

theorem dataAt_eq_byteAt (code : List Nat) (j : Nat) (h : j < code.length) :
    dataAt code j = some (byteAt code j) := by
  unfold dataAt byteAt
  rw [List.getElem?_eq_getElem h]
  simp [List.getD_eq_getElem?_getD, List.getElem?_eq_getElem h]

theorem riLoop_fail (S : Nat) (code : List Nat) :
    ∀ (n fuel addr acc : Nat) (bits : Int),
      bits ≤ 7 * n →
      (∀ i : Nat, i ≤ n → addr + i < code.length ∧ 128 ≤ byteAt code (addr + i)) →
      n + 1 ≤ fuel →
      riLoop S code fuel addr acc bits = .fail := by
  intro n
  induction n with
  | zero =>
    intro fuel addr acc bits hbits hbytes hfuel
    obtain ⟨f, rfl⟩ : ∃ f, fuel = f + 1 := ⟨fuel - 1, by omega⟩
    obtain ⟨hlt, hge⟩ := hbytes 0 (le_refl _)
    rw [Nat.add_zero] at hlt hge
    simp only [riLoop, dataAt_eq_byteAt code addr hlt]
    rw [if_pos hge, if_neg (by omega)]
  | succ n ih =>
    intro fuel addr acc bits hbits hbytes hfuel
    obtain ⟨f, rfl⟩ : ∃ f, fuel = f + 1 := ⟨fuel - 1, by omega⟩
    obtain ⟨hlt, hge⟩ := hbytes 0 (by omega)
    rw [Nat.add_zero] at hlt hge
    simp only [riLoop, dataAt_eq_byteAt code addr hlt]
    rw [if_pos hge]
    by_cases h0 : 0 < bits
    · rw [if_pos h0]
      apply ih f (addr + 1) (riStep S acc (byteAt code addr)) (bits - 7)
        (by push_cast at hbits ⊢; omega)
        (fun i hi => by
          have := hbytes (i + 1) (by omega)
          rwa [show addr + 1 + i = addr + (i + 1) by omega])
        (by omega)
    · rw [if_neg h0]

theorem be4_length (m : Nat) : (be4 m).length = 4 := rfl

theorem byteAt_middle (pre mid rest : List Nat) (i : Nat) (h : i < mid.length) :
    byteAt ((pre ++ mid) ++ rest) (pre.length + i) = mid.getD i 0 % 256 := by
  unfold byteAt
  rw [List.getD_eq_getElem?_getD, List.getD_eq_getElem?_getD,
    List.getElem?_append_left (by simp only [List.length_append]; omega),
    List.getElem?_append_right (by omega),
    show pre.length + i - pre.length = i by omega]

theorem byteAt_lt (code : List Nat) (i : Nat) : byteAt code i < 256 :=
  Nat.mod_lt _ (by omega)

theorem dataAt_some_lt (code : List Nat) (i b : Nat) (h : dataAt code i = some b) :
    i < code.length := by
  unfold dataAt at h
  by_cases hlt : i < code.length
  · exact hlt
  · rw [List.getElem?_eq_none (by omega)] at h
    simp at h

theorem read_offset_ok (code : List Nat) (addr : Nat) (off : Int) (addr1 : Nat)
    (h : sieve_binary_read_offset code addr = .ok off addr1) :
    addr1 = addr + 4 ∧ addr + 4 ≤ code.length ∧ -(2 ^ 31) ≤ off ∧ off < 2 ^ 31 := by
  unfold sieve_binary_read_offset at h
  by_cases hb : 4 ≤ code.length - addr
  · rw [if_pos hb] at h
    simp only [RdRes.ok.injEq] at h
    obtain ⟨hoff, haddr⟩ := h
    have h0 := byteAt_lt code addr
    have h1 := byteAt_lt code (addr + 1)
    have h2 := byteAt_lt code (addr + 2)
    have h3 := byteAt_lt code (addr + 3)
    refine ⟨haddr.symm, by omega, ?_, ?_⟩ <;>
      · rw [← hoff]
        split <;> push_cast <;> omega
  · rw [if_neg hb] at h
    simp at h

theorem read_code_ok (code : List Nat) (addr : Nat) (t : Int) (addr1 : Nat)
    (h : sieve_binary_read_code code addr = .ok t addr1) :
    addr1 = addr + 1 ∧ addr + 1 ≤ code.length := by
  unfold sieve_binary_read_code at h
  by_cases hb : 1 ≤ code.length - addr
  · rw [if_pos hb] at h
    simp only [RdRes.ok.injEq] at h
    exact ⟨h.2.symm, by omega⟩
  · rw [if_neg hb] at h
    simp at h

/-! ## Program-counter invariant lemmas -/

theorem optLoop_le (code : List Nat) :
    ∀ (fuel addr : Nat) (acc l : List Nat) (addr1 : Nat),
      optLoop code fuel addr acc = some (l, addr1) → addr1 ≤ code.length := by
  intro fuel
  induction fuel with
  | zero =>
    intro addr acc l addr1 h
    simp [optLoop] at h
  | succ fuel ih =>
    intro addr acc l addr1 h
    cases hd : dataAt code addr with
    | none => simp [optLoop, hd] at h
    | some b =>
      cases b with
      | zero =>
        simp only [optLoop, hd] at h
        have := dataAt_some_lt code addr 0 hd
        simp only [Option.some.injEq, Prod.mk.injEq] at h
        omega
      | succ e =>
        simp only [optLoop, hd] at h
        exact ih _ _ _ _ h

theorem handle_optional_le (code : List Nat) (addr : Nat) (l : List Nat) (addr1 : Nat)
    (h : sieve_interpreter_handle_optional_operands code addr = some (l, addr1))
    (hpc : addr ≤ code.length) :
    addr1 ≤ code.length := by
  unfold sieve_interpreter_handle_optional_operands at h
  cases hd : dataAt code addr with
  | none =>
    rw [hd] at h
    simp only [Option.some.injEq, Prod.mk.injEq] at h
    omega
  | some b =>
    simp only [hd] at h
    by_cases hb : b = OPT_MARKER
    · rw [if_pos hb] at h
      exact optLoop_le code _ _ _ _ _ h
    · rw [if_neg hb] at h
      simp only [Option.some.injEq, Prod.mk.injEq] at h
      omega

theorem program_jump_le (code : List Nat) (pc : Nat) (b : Bool) (pc1 : Nat)
    (h : sieve_interpreter_program_jump code pc b = (true, pc1)) :
    pc1 ≤ code.length := by
  unfold sieve_interpreter_program_jump at h
  cases hro : sieve_binary_read_offset code pc with
  | ok off pc4 =>
    rw [hro] at h
    simp only [] at h
    by_cases hcond : (((pc : Int) + off) % (2 ^ 32 : Int)).toNat ≤ code.length ∧
        0 < (((pc : Int) + off) % (2 ^ 32 : Int)).toNat
    · rw [if_pos hcond] at h
      simp only [Prod.mk.injEq] at h
      obtain ⟨hro4, hle4, _, _⟩ := read_offset_ok code pc off pc4 hro
      cases b with
      | true => simp at h; omega
      | false => simp at h; omega
    · rw [if_neg hcond] at h
      simp at h
  | fail => rw [hro] at h; simp at h
  | oob => rw [hro] at h; simp at h

theorem execOp_le (P : Prog) (op : Op) (s : MState) (opAddr : Nat) (s1 : MState)
    (h : execOp P op s opAddr = some s1) (hpc : s.pc ≤ P.code.length) :
    s1.pc ≤ P.code.length := by
  cases op with
  | stop =>
    simp only [execOp, Option.some.injEq] at h
    rw [← h]
    exact hpc
  | jmp =>
    simp only [execOp] at h
    cases hj : sieve_interpreter_program_jump P.code s.pc true with
    | mk ok pc1 =>
      rw [hj] at h
      cases ok with
      | true =>
        simp only [Option.some.injEq] at h
        rw [← h]
        exact program_jump_le P.code s.pc true pc1 hj
      | false => simp at h
  | jmptrue =>
    simp only [execOp] at h
    cases hj : sieve_interpreter_program_jump P.code s.pc s.test_result with
    | mk ok pc1 =>
      rw [hj] at h
      cases ok with
      | true =>
        simp only [Option.some.injEq] at h
        rw [← h]
        exact program_jump_le P.code s.pc s.test_result pc1 hj
      | false => simp at h
  | jmpfalse =>
    simp only [execOp] at h
    cases hj : sieve_interpreter_program_jump P.code s.pc (! s.test_result) with
    | mk ok pc1 =>
      rw [hj] at h
      cases ok with
      | true =>
        simp only [Option.some.injEq] at h
        rw [← h]
        exact program_jump_le P.code s.pc (! s.test_result) pc1 hj
      | false => simp at h
  | keep =>
    simp only [execOp, cmd_keep_operation_execute] at h
    cases ho : sieve_interpreter_handle_optional_operands P.code s.pc with
    | none => rw [ho] at h; simp at h
    | some pr =>
      obtain ⟨slist, addr1⟩ := pr
      simp only [ho] at h
      by_cases hacc : P.acceptKeep slist (P.srcLine opAddr) = true
      · rw [if_pos hacc] at h
        simp only [Option.some.injEq] at h
        rw [← h]
        exact handle_optional_le P.code s.pc slist addr1 ho hpc
      · rw [if_neg hacc] at h
        simp at h

theorem execute_operation_le (P : Prog) (s s1 : MState)
    (h : sieve_interpreter_execute_operation P s = some s1) :
    s1.pc ≤ P.code.length := by
  unfold sieve_interpreter_execute_operation at h
  cases hrc : sieve_binary_read_code P.code s.pc with
  | ok tag pc1 =>
    simp only [hrc] at h
    cases hop : lookupOpcode tag with
    | none => rw [hop] at h; simp at h
    | some op =>
      rw [hop] at h
      obtain ⟨hpc1, hle⟩ := read_code_ok P.code s.pc tag pc1 hrc
      exact execOp_le P op _ s.pc s1 h (by simp only []; omega)
  | fail => rw [hrc] at h; simp at h
  | oob => rw [hrc] at h; simp at h

theorem runLoop_le (P : Prog) :
    ∀ (fuel : Nat) (s : MState) (b : Bool) (s1 : MState),
      s.pc ≤ P.code.length → runLoop P fuel s = some (b, s1) → s1.pc ≤ P.code.length := by
  intro fuel
  induction fuel with
  | zero =>
    intro s b s1 _ h
    simp [runLoop] at h
  | succ fuel ih =>
    intro s b s1 hpc h
    unfold runLoop at h
    by_cases hc : s.stopped = false ∧ s.pc < P.code.length
    · rw [if_pos hc] at h
      cases hex : sieve_interpreter_execute_operation P s with
      | none =>
        rw [hex] at h
        simp only [Option.some.injEq, Prod.mk.injEq] at h
        rw [← h.2]
        exact hpc
      | some s2 =>
        rw [hex] at h
        exact ih s2 b s1 (execute_operation_le P s s2 hex) h
    · rw [if_neg hc] at h
      simp only [Option.some.injEq, Prod.mk.injEq] at h
      rw [← h.2]
      exact hpc

theorem dumpDecode_le (P : Prog) (op : Op) (s s1 : MState)
    (h : dumpDecode P op s = some s1) (hpc : s.pc ≤ P.code.length) :
    s1.pc ≤ P.code.length := by
  cases op with
  | stop =>
    simp only [dumpDecode, Option.some.injEq] at h
    rw [← h]
    exact hpc
  | jmp | jmptrue | jmpfalse =>
    simp only [dumpDecode] at h
    cases hro : sieve_binary_read_offset P.code s.pc with
    | ok off pc4 =>
      rw [hro] at h
      simp only [Option.some.injEq] at h
      rw [← h]
      have := read_offset_ok P.code s.pc off pc4 hro
      simp only []
      omega
    | fail => rw [hro] at h; simp at h
    | oob => rw [hro] at h; simp at h
  | keep =>
    simp only [dumpDecode] at h
    cases ho : sieve_interpreter_handle_optional_operands P.code s.pc with
    | none => rw [ho] at h; simp at h
    | some pr =>
      obtain ⟨slist, addr1⟩ := pr
      simp only [ho] at h
      simp only [Option.some.injEq] at h
      rw [← h]
      exact handle_optional_le P.code s.pc slist addr1 ho hpc

theorem dump_operation_le (P : Prog) (s s1 : MState)
    (h : sieve_interpreter_dump_operation P s = some s1) (_hpc : s.pc ≤ P.code.length) :
    s1.pc ≤ P.code.length := by
  unfold sieve_interpreter_dump_operation at h
  cases hrc : sieve_binary_read_code P.code s.pc with
  | ok tag pc1 =>
    simp only [hrc] at h
    cases hop : lookupOpcode tag with
    | none => rw [hop] at h; simp at h
    | some op =>
      rw [hop] at h
      obtain ⟨hpc1, hle⟩ := read_code_ok P.code s.pc tag pc1 hrc
      exact dumpDecode_le P op _ s1 h (by simp only []; omega)
  | fail => rw [hrc] at h; simp at h
  | oob => rw [hrc] at h; simp at h

theorem dumpLoop_le (P : Prog) :
    ∀ (fuel : Nat) (s : MState) (b : Bool) (s1 : MState),
      s.pc ≤ P.code.length → dumpLoop P fuel s = some (b, s1) → s1.pc ≤ P.code.length := by
  intro fuel
  induction fuel with
  | zero =>
    intro s b s1 _ h
    simp [dumpLoop] at h
  | succ fuel ih =>
    intro s b s1 hpc h
    unfold dumpLoop at h
    by_cases hc : s.pc < P.code.length
    · rw [if_pos hc] at h
      cases hex : sieve_interpreter_dump_operation P s with
      | none =>
        rw [hex] at h
        simp only [Option.some.injEq, Prod.mk.injEq] at h
        rw [← h.2]
        exact hpc
      | some s2 =>
        rw [hex] at h
        exact ih s2 b s1 (dump_operation_le P s s2 hex hpc) h
    · rw [if_neg hc] at h
      simp only [Option.some.injEq, Prod.mk.injEq] at h
      rw [← h.2]
      exact hpc

/-! ## Specification-side definitions

Definitions that follow the spec's words rather than the code, used to
compare the two where they disagree. -/

/-- The candidate new program counter as the spec words it for the jump
primitive: "the candidate new PC is `current_pc_after_operand +
offset`". -/
def specJumpCandidate (pcAfterOperand : Nat) (offset : Int) : Int :=
  (pcAfterOperand : Int) + offset

/-! ## Claim theorems -/

/-- C1: the claim is that every decode function returns failure rather
than read outside the declared buffer length when too few bytes remain —
in particular that `read_string` requires `length + 1` bytes after the
length prefix before touching the payload or the terminator.  The code
violates this: on the buffer `[0x01, 0x41]` (length prefix 1, then
exactly 1 byte remaining) `read_string` passes its `strlen >
bytes_left` check, skips the payload and dereferences the terminator at
index 2, one byte past the end of the 2-byte buffer; and `read_integer`
on `[0x80]` (a lone continuation byte) consumes it and re-evaluates the
loop condition by dereferencing index 1, past the end of the 1-byte
buffer. -/
theorem claim_C1 :
    sieve_binary_read_string [1, 65] 0 = RdRes.oob ∧
    sieve_binary_read_integer 4 [128] 0 = RdRes.oob := by
  decide

/-- C6 counterexample: the claim says `read_integer` fails on any input
with more than `⌈width/7⌉` continuation-marked groups.  With the 32-bit
width, `⌈32/7⌉ = 5`, yet the 6-group input
`[0x81, 0x80, 0x80, 0x80, 0x80, 0x00]` (which encodes `2 ^ 35`) is
accepted: the decode returns success with the silently truncated value
`2 ^ 35 % 2 ^ 32 = 0`. -/
theorem claim_C6_counterexample :
    sieve_binary_read_integer 4 [129, 128, 128, 128, 128, 0] 0 = RdRes.ok 0 6 ∧
    (8 * 4 + 6) / 7 + 1 = 6 ∧
    RdRes.ok 0 6 ≠ (RdRes.fail : RdRes Nat) := by
  decide

/-- C2: for every value `v` representable in the native integer width
(`8 * S` bits), decoding at the address where `emit_integer` wrote — in
any buffer, with any bytes following — succeeds and yields exactly `v`;
and the emitted bytes are the minimal base-128 encoding: every byte but
the last carries the continuation bit `0x80`, the last is the low 7-bit
group without it, the groups are most-significant first (folding them
MSB-first reconstructs `v`), and no encoding with fewer groups could
represent `v`. -/
theorem claim_C2 (S v : Nat) (pre post : List Nat) (_hS : 0 < S) (hv : v < 2 ^ (8 * S)) :
    sieve_binary_read_integer S (sieve_binary_emit_integer pre v ++ post) pre.length =
      RdRes.ok v (pre.length + (sieve_binary_emit_integer [] v).length) ∧
    (∀ b ∈ (sieve_binary_emit_integer [] v).dropLast, 128 ≤ b ∧ b < 256) ∧
    (sieve_binary_emit_integer [] v).getLast? = some (v % 128) ∧ v % 128 < 128 ∧
    (sieve_binary_emit_integer [] v).foldl (fun a b => a * 128 + b % 128) 0 = v ∧
    (∀ L, 0 < L → v < 128 ^ L → (sieve_binary_emit_integer [] v).length ≤ L) := by
  have hnil : sieve_binary_emit_integer [] v = vlq v := by
    simp [sieve_binary_emit_integer]
  refine ⟨?_, ?_, ?_, Nat.mod_lt v (by omega), ?_, ?_⟩
  · show sieve_binary_read_integer S ((pre ++ vlq v) ++ post) pre.length = _
    rw [read_integer_emit S v pre post hv, hnil]
  · intro b hb
    rw [hnil, vlq_eq, List.dropLast_concat] at hb
    exact contDigits_mem _ b hb
  · rw [hnil, vlq_eq, List.getLast?_concat]
  · rw [hnil, vlq_eq, List.foldl_append, foldl_msb_contDigits (v / 128) 0]
    simp only [List.foldl_cons, List.foldl_nil, Nat.zero_mul, Nat.zero_add]
    have h1 : v % 128 % 128 = v % 128 := by omega
    rw [h1]
    have := Nat.div_add_mod v 128
    omega
  · intro L hL hvL
    obtain ⟨K, rfl⟩ : ∃ K, L = K + 1 := ⟨L - 1, by omega⟩
    rw [hnil, vlq_eq]
    have hdiv : v / 128 < 128 ^ K := by
      apply Nat.div_lt_of_lt_mul
      rw [← pow_succ']
      exact hvL
    have := contDigits_length_le K (v / 128) hdiv
    simp only [List.length_append, List.length_cons, List.length_nil]
    omega

/-- C2 witness: the width-4 instance at `v = 300`, emitted after one byte
of prior code and followed by trailing bytes. -/
theorem claim_C2_witness :
    sieve_binary_read_integer 4 (sieve_binary_emit_integer [7] 300 ++ [9]) 1 =
      RdRes.ok 300 (1 + (sieve_binary_emit_integer [] 300).length) ∧
    (∀ b ∈ (sieve_binary_emit_integer [] 300).dropLast, 128 ≤ b ∧ b < 256) ∧
    (sieve_binary_emit_integer [] 300).getLast? = some (300 % 128) ∧ 300 % 128 < 128 ∧
    (sieve_binary_emit_integer [] 300).foldl (fun a b => a * 128 + b % 128) 0 = 300 ∧
    (∀ L, 0 < L → 300 < 128 ^ L → (sieve_binary_emit_integer [] 300).length ≤ L) :=
  claim_C2 4 300 [7] [9] (by decide) (by decide)

/-- C6 amended: the hardening guard that actually exists in the code —
decrement a bit budget of `width` by 7 per continuation byte and fail
when a continuation byte arrives with the budget exhausted — rejects any
input whose first `⌈width/7⌉ + 1` bytes all carry the continuation bit,
i.e. any encoding of more than `⌈width/7⌉ + 1` groups; encodings of up
to that many groups are accepted even when the accumulated bits exceed
the width, in which case the value is silently truncated modulo
`2 ^ width` (see the counterexample). -/
theorem claim_C6_amended (S : Nat) (code : List Nat) (addr : Nat)
    (h : ∀ i : Nat, i ≤ (8 * S + 6) / 7 →
      addr + i < code.length ∧ 128 ≤ byteAt code (addr + i)) :
    sieve_binary_read_integer S code addr = RdRes.fail := by
  have h0 := (h 0 (by omega)).1
  have hn := (h ((8 * S + 6) / 7) (le_refl _)).1
  unfold sieve_binary_read_integer
  rw [if_neg (by omega)]
  exact riLoop_fail S code ((8 * S + 6) / 7) _ addr 0 (8 * S)
    (by push_cast; omega) h (by omega)

/-- C6 amended witness: with the 32-bit width, six consecutive
continuation bytes are rejected. -/
theorem claim_C6_amended_witness :
    sieve_binary_read_integer 4 [128, 128, 128, 128, 128, 128] 0 = RdRes.fail :=
  claim_C6_amended 4 [128, 128, 128, 128, 128, 128] 0 (by decide)

/-- C3 counterexample: the claim computes the candidate PC as
`current_pc_after_operand + offset`.  On the 4-byte program
`[0, 0, 0, 4]` (a single offset operand holding 4) with the PC at 0, the
code's jump succeeds and sets the PC to `0 + 4 = 4` (the PC captured
before the operand, plus the offset), although the spec's candidate
`pc_after_operand + offset = 4 + 4 = 8` lies outside `(0, code_size]`
and would therefore have to fail. -/
theorem claim_C3_counterexample :
    sieve_interpreter_program_jump [0, 0, 0, 4] 0 true = (true, 4) ∧
    ¬(0 < specJumpCandidate 4 4 ∧
        specJumpCandidate 4 4 ≤ (([0, 0, 0, 4] : List Nat).length : Int)) := by
  decide

/-- C4: after `emit_offset` returns address `A` (here `pre.length`) and
`N` further bytes are emitted, `resolve_offset A` overwrites exactly the
4 bytes at `A` with `current_size - A = N + 4`, big-endian, leaving the
buffer length unchanged, and a subsequent `read_offset` at `A` succeeds
and returns exactly `N + 4` with the cursor at `A + 4`. -/
theorem claim_C4 (pre : List Nat) (v : Int) (extra : List Nat)
    (h : extra.length + 4 < 2 ^ 31) :
    (sieve_binary_resolve_offset (sieve_binary_emit_offset pre v ++ extra) pre.length).length =
      (sieve_binary_emit_offset pre v ++ extra).length ∧
    sieve_binary_read_offset
        (sieve_binary_resolve_offset (sieve_binary_emit_offset pre v ++ extra) pre.length)
        pre.length =
      RdRes.ok ((extra.length : Int) + 4) (pre.length + 4) := by
  have hw : sieve_binary_resolve_offset (sieve_binary_emit_offset pre v ++ extra) pre.length =
      (pre ++ be4 (extra.length + 4)) ++ extra := by
    unfold sieve_binary_resolve_offset sieve_binary_update_data sieve_binary_emit_offset
    have h1 : ((pre ++ be4 ((v % 2 ^ 32).toNat)) ++ extra).length - pre.length =
        extra.length + 4 := by
      simp only [List.length_append, be4_length]
      omega
    rw [h1]
    have h2 : ((pre ++ be4 ((v % 2 ^ 32).toNat)) ++ extra).take pre.length = pre := by
      rw [List.append_assoc, List.take_left]
    have h3 : ((pre ++ be4 ((v % 2 ^ 32).toNat)) ++ extra).drop
        (pre.length + (be4 (extra.length + 4)).length) = extra := by
      rw [be4_length, show pre.length + 4 = (pre ++ be4 ((v % 2 ^ 32).toNat)).length by
            simp [be4_length],
        List.drop_left]
    rw [h2, h3, List.append_assoc]
  constructor
  · rw [hw]
    simp only [List.length_append, be4_length, sieve_binary_emit_offset]
  · rw [hw]
    unfold sieve_binary_read_offset
    have hb0 := byteAt_middle pre (be4 (extra.length + 4)) extra 0 (by rw [be4_length]; omega)
    have hb1 := byteAt_middle pre (be4 (extra.length + 4)) extra 1 (by rw [be4_length]; omega)
    have hb2 := byteAt_middle pre (be4 (extra.length + 4)) extra 2 (by rw [be4_length]; omega)
    have hb3 := byteAt_middle pre (be4 (extra.length + 4)) extra 3 (by rw [be4_length]; omega)
    simp only [Nat.add_zero] at hb0
    rw [if_pos (by simp only [List.length_append, be4_length]; omega)]
    rw [hb0, hb1, hb2, hb3]
    simp only [be4, List.getD_cons_zero, List.getD_cons_succ]
    rw [if_pos (by omega)]
    congr 1
    push_cast
    omega

/-- C4 witness: a placeholder offset emitted after two bytes of code,
three bytes emitted on top, then resolved: `read_offset` yields
`3 + 4 = 7`. -/
theorem claim_C4_witness :
    (sieve_binary_resolve_offset (sieve_binary_emit_offset [8, 8] 0 ++ [1, 2, 3]) 2).length =
      (sieve_binary_emit_offset [8, 8] 0 ++ [1, 2, 3]).length ∧
    sieve_binary_read_offset
        (sieve_binary_resolve_offset (sieve_binary_emit_offset [8, 8] 0 ++ [1, 2, 3]) 2) 2 =
      RdRes.ok ((3 : Int) + 4) (2 + 4) :=
  claim_C4 [8, 8] 0 [1, 2, 3] (by norm_num)

/-- C5: for every byte string `s`, including the empty one, reading at
the address where `emit_string` wrote — in any buffer, with any bytes
following — succeeds and yields exactly `s`, with the cursor past the
length prefix, payload and terminator; and if the terminator byte is
replaced by any nonzero byte value, `read_string` fails. -/
theorem claim_C5 (pre post s : List Nat) (_hs : ∀ b ∈ s, b < 256)
    (hlen : s.length < 2 ^ 32) :
    sieve_binary_read_string (sieve_binary_emit_string pre s ++ post) pre.length =
      RdRes.ok s (pre.length + (vlq s.length).length + s.length + 1) ∧
    (∀ t, 0 < t → t < 256 →
      sieve_binary_read_string (pre ++ vlq s.length ++ s ++ [t] ++ post) pre.length =
        RdRes.fail) := by
  have hri := read_integer_emit 4 s.length pre (s ++ 0 :: post)
    (by norm_num at hlen ⊢; exact hlen)
  constructor
  · have hshape : sieve_binary_emit_string pre s ++ post =
        (pre ++ vlq s.length) ++ (s ++ 0 :: post) := by
      simp [sieve_binary_emit_string]
    rw [hshape]
    unfold sieve_binary_read_string sieve_binary_read_unsigned
    simp only [hri]
    rw [if_neg (by simp only [List.length_append, List.length_cons]; omega)]
    have hterm : codeAt ((pre ++ vlq s.length) ++ (s ++ 0 :: post))
        (pre.length + (vlq s.length).length + s.length) = some 0 := by
      rw [show (pre ++ vlq s.length) ++ (s ++ 0 :: post) =
            ((pre ++ vlq s.length) ++ s) ++ 0 :: post by simp,
        show pre.length + (vlq s.length).length + s.length =
            ((pre ++ vlq s.length) ++ s).length by simp only [List.length_append]]
      unfold codeAt
      rw [dataAt_append]
      norm_num
    simp only [hterm]
    rw [if_neg (by simp)]
    have hdrop : ((pre ++ vlq s.length) ++ (s ++ 0 :: post)).drop
        (pre.length + (vlq s.length).length) = s ++ 0 :: post := by
      rw [show pre.length + (vlq s.length).length = (pre ++ vlq s.length).length by simp,
        List.drop_left]
    rw [hdrop, List.take_left s (0 :: post)]
  · intro t ht ht256
    have hshape2 : pre ++ vlq s.length ++ s ++ [t] ++ post =
        (pre ++ vlq s.length) ++ (s ++ t :: post) := by
      simp
    rw [hshape2]
    unfold sieve_binary_read_string sieve_binary_read_unsigned
    have hri2 := read_integer_emit 4 s.length pre (s ++ t :: post)
      (by norm_num at hlen ⊢; exact hlen)
    simp only [hri2]
    rw [if_neg (by simp only [List.length_append, List.length_cons]; omega)]
    have hterm2 : codeAt ((pre ++ vlq s.length) ++ (s ++ t :: post))
        (pre.length + (vlq s.length).length + s.length) =
        some (if 128 ≤ t then (t : Int) - 256 else (t : Int)) := by
      rw [show (pre ++ vlq s.length) ++ (s ++ t :: post) =
            ((pre ++ vlq s.length) ++ s) ++ t :: post by simp,
        show pre.length + (vlq s.length).length + s.length =
            ((pre ++ vlq s.length) ++ s).length by simp only [List.length_append]]
      unfold codeAt
      rw [dataAt_append, Nat.mod_eq_of_lt ht256]
      simp
    simp only [hterm2]
    rw [if_pos (by split <;> omega)]

/-- C5 witness: the two-byte string `[72, 105]` emitted after one byte of
prior code round-trips, and a corrupted terminator `3` makes the decode
fail. -/
theorem claim_C5_witness :
    sieve_binary_read_string (sieve_binary_emit_string [6] [72, 105] ++ [9]) 1 =
      RdRes.ok [72, 105] (1 + (vlq ([72, 105] : List Nat).length).length + 2 + 1) ∧
    (∀ t, 0 < t → t < 256 →
      sieve_binary_read_string
          ([6] ++ vlq ([72, 105] : List Nat).length ++ [72, 105] ++ [t] ++ [9]) 1 =
        RdRes.fail) :=
  claim_C5 [6] [9] [72, 105] (by decide) (by norm_num)

/-- C3 amended: the jump primitive decodes one 4-byte offset operand and
computes the candidate new PC as `pc + offset` where `pc` is the PC at
the **start** of the offset operand (equivalently
`current_pc_after_operand + offset - 4`), not after it; the jump
succeeds if and only if `0 < candidate ≤ code_size`; an invalid jump
returns failure, is never clamped or wrapped, and leaves the PC just past
the operand instead of moving it to the invalid target. -/
theorem claim_C3_amended (code : List Nat) (pc : Nat) (off : Int) (pc4 : Nat)
    (h : sieve_binary_read_offset code pc = RdRes.ok off pc4)
    (_hpc : pc ≤ code.length) (hsz : (code.length : Int) < 2 ^ 31) :
    pc4 = pc + 4 ∧
    (∀ b : Bool, (sieve_interpreter_program_jump code pc b).1 = true ↔
      (0 < (pc : Int) + off ∧ (pc : Int) + off ≤ (code.length : Int))) ∧
    (0 < (pc : Int) + off ∧ (pc : Int) + off ≤ (code.length : Int) →
      sieve_interpreter_program_jump code pc true = (true, ((pc : Int) + off).toNat)) ∧
    (¬(0 < (pc : Int) + off ∧ (pc : Int) + off ≤ (code.length : Int)) →
      ∀ b : Bool, sieve_interpreter_program_jump code pc b = (false, pc + 4)) := by
  obtain ⟨hpc4, hle4, hlo, hhi⟩ := read_offset_ok code pc off pc4 h
  subst hpc4
  have hcand : ∀ b : Bool, sieve_interpreter_program_jump code pc b =
      (if (((pc : Int) + off) % (2 ^ 32 : Int)).toNat ≤ code.length ∧
          0 < (((pc : Int) + off) % (2 ^ 32 : Int)).toNat then
        (true, if b then (((pc : Int) + off) % (2 ^ 32 : Int)).toNat else pc + 4)
      else (false, pc + 4)) := by
    intro b
    unfold sieve_interpreter_program_jump
    rw [h]
  by_cases hvalid : 0 < (pc : Int) + off ∧ (pc : Int) + off ≤ (code.length : Int)
  · have hmod : ((pc : Int) + off) % (2 ^ 32 : Int) = (pc : Int) + off := by omega
    refine ⟨rfl, ?_, ?_, ?_⟩
    · intro b
      rw [hcand b, hmod, if_pos (by omega)]
      simpa using hvalid
    · intro _
      rw [hcand true, hmod, if_pos (by omega)]
      rfl
    · intro hc
      exact absurd hvalid hc
  · have hinval : ¬((((pc : Int) + off) % (2 ^ 32 : Int)).toNat ≤ code.length ∧
        0 < (((pc : Int) + off) % (2 ^ 32 : Int)).toNat) := by omega
    refine ⟨rfl, ?_, ?_, ?_⟩
    · intro b
      rw [hcand b, if_neg hinval]
      simpa using hvalid
    · intro hc
      exact absurd hc hvalid
    · intro _ b
      rw [hcand b, if_neg hinval]

/-- C3 amended witness: offset 8 decoded at `pc = 2` of a 10-byte
program: the candidate `2 + 8 = 10 = code_size` is valid and the taken
jump moves the PC there. -/
theorem claim_C3_amended_witness :
    (6 : Nat) = 2 + 4 ∧
    (∀ b : Bool,
      (sieve_interpreter_program_jump [9, 9, 0, 0, 0, 8, 9, 9, 9, 9] 2 b).1 = true ↔
      (0 < ((2 : Nat) : Int) + 8 ∧
        ((2 : Nat) : Int) + 8 ≤ (([9, 9, 0, 0, 0, 8, 9, 9, 9, 9] : List Nat).length : Int))) ∧
    (0 < ((2 : Nat) : Int) + 8 ∧
        ((2 : Nat) : Int) + 8 ≤ (([9, 9, 0, 0, 0, 8, 9, 9, 9, 9] : List Nat).length : Int) →
      sieve_interpreter_program_jump [9, 9, 0, 0, 0, 8, 9, 9, 9, 9] 2 true =
        (true, (((2 : Nat) : Int) + 8).toNat)) ∧
    (¬(0 < ((2 : Nat) : Int) + 8 ∧
        ((2 : Nat) : Int) + 8 ≤ (([9, 9, 0, 0, 0, 8, 9, 9, 9, 9] : List Nat).length : Int)) →
      ∀ b : Bool,
        sieve_interpreter_program_jump [9, 9, 0, 0, 0, 8, 9, 9, 9, 9] 2 b = (false, 2 + 4)) :=
  claim_C3_amended [9, 9, 0, 0, 0, 8, 9, 9, 9, 9] 2 8 6 (by decide) (by decide) (by decide)

/-- C7: the program counter invariant `0 ≤ pc ≤ code_size` holds at
every point of a run or dump: the PC is 0 after a reset; one executed
operation (the fetch step, the handler's operand decoding, and any valid
jump it performs) leaves the PC at most `code_size`; and the run and
dump loops preserve the bound through to their final state. -/
theorem claim_C7 :
    (∀ s : MState, (sieve_interpreter_reset s).pc = 0) ∧
    (∀ (P : Prog) (s s1 : MState),
      sieve_interpreter_execute_operation P s = some s1 → s1.pc ≤ P.code.length) ∧
    (∀ (P : Prog) (s s1 : MState), s.pc ≤ P.code.length →
      sieve_interpreter_dump_operation P s = some s1 → s1.pc ≤ P.code.length) ∧
    (∀ (P : Prog) (fuel : Nat) (s : MState) (b : Bool) (s1 : MState),
      s.pc ≤ P.code.length → runLoop P fuel s = some (b, s1) → s1.pc ≤ P.code.length) ∧
    (∀ (P : Prog) (fuel : Nat) (s : MState) (b : Bool) (s1 : MState),
      s.pc ≤ P.code.length → dumpLoop P fuel s = some (b, s1) → s1.pc ≤ P.code.length) :=
  ⟨fun _ => rfl,
   fun P s s1 h => execute_operation_le P s s1 h,
   fun P s s1 hpc h => dump_operation_le P s s1 h hpc,
   fun P fuel s b s1 hpc h => runLoop_le P fuel s b s1 hpc h,
   fun P fuel s b s1 hpc h => dumpLoop_le P fuel s b s1 hpc h⟩

/-- C7 witness: the PC of a dirty state is reset to 0, and a complete
run of the one-operation keep program leaves the PC at
`code_size = 1`. -/
theorem claim_C7_witness :
    (sieve_interpreter_reset ⟨9, true, true, []⟩).pc = 0 ∧
    (⟨1, false, false, [([], 3)]⟩ : MState).pc ≤ ([5] : List Nat).length :=
  ⟨claim_C7.1 ⟨9, true, true, []⟩,
   claim_C7.2.2.2.1 ⟨[5], fun _ => 3, fun _ _ => true⟩ 2 ⟨0, false, false, []⟩ true
     ⟨1, false, false, [([], 3)]⟩ (by decide) (by decide)⟩

/-- C8: the run loop reports success exactly when it exits because the
final state is stopped (the stop primitive set the flag) or its PC
reached `code_size`; when it reports failure, the returned state is the
very state whose operation fetch/execute failed — still unstopped, PC
strictly inside the code — and the loop returned at once rather than
retrying or resuming it. -/
theorem claim_C8 (P : Prog) (fuel : Nat) (s : MState) (b : Bool) (s1 : MState)
    (hpc : s.pc ≤ P.code.length) (h : runLoop P fuel s = some (b, s1)) :
    (b = true ↔ s1.stopped = true ∨ s1.pc = P.code.length) ∧
    (b = false → s1.stopped = false ∧ s1.pc < P.code.length ∧
      sieve_interpreter_execute_operation P s1 = none) := by
  induction fuel generalizing s with
  | zero => simp [runLoop] at h
  | succ fuel ih =>
    unfold runLoop at h
    by_cases hc : s.stopped = false ∧ s.pc < P.code.length
    · rw [if_pos hc] at h
      cases hex : sieve_interpreter_execute_operation P s with
      | none =>
        rw [hex] at h
        simp only [Option.some.injEq, Prod.mk.injEq] at h
        obtain ⟨rfl, rfl⟩ := h
        constructor
        · constructor
          · intro hb
            exact absurd hb (by simp)
          · intro hb
            rcases hb with hb | hb
            · rw [hc.1] at hb
              exact absurd hb (by simp)
            · omega
        · intro _
          exact ⟨hc.1, hc.2, hex⟩
      | some s2 =>
        rw [hex] at h
        exact ih s2 (execute_operation_le P s s2 hex) h
    · rw [if_neg hc] at h
      simp only [Option.some.injEq, Prod.mk.injEq] at h
      obtain ⟨rfl, rfl⟩ := h
      constructor
      · constructor
        · intro _
          rcases Bool.eq_false_or_eq_true s.stopped with hst | hst
          · left
            exact hst
          · right
            rw [not_and_or] at hc
            rcases hc with hc | hc
            · exact absurd hst hc
            · omega
        · intro _
          rfl
      · intro hb
        exact absurd hb (by simp)

/-- C8 witness: the single-keep program runs to a successful exit with
the PC at `code_size = 1` and an unstopped final state. -/
theorem claim_C8_witness :
    (true = true ↔ (⟨1, false, false, [([], 3)]⟩ : MState).stopped = true ∨
      (⟨1, false, false, [([], 3)]⟩ : MState).pc = (⟨[5], fun _ => 3, fun _ _ => true⟩ : Prog).code.length) ∧
    (true = false → (⟨1, false, false, [([], 3)]⟩ : MState).stopped = false ∧
      (⟨1, false, false, [([], 3)]⟩ : MState).pc < (⟨[5], fun _ => 3, fun _ _ => true⟩ : Prog).code.length ∧
      sieve_interpreter_execute_operation ⟨[5], fun _ => 3, fun _ _ => true⟩
        ⟨1, false, false, [([], 3)]⟩ = none) :=
  claim_C8 ⟨[5], fun _ => 3, fun _ _ => true⟩ 2 ⟨0, false, false, []⟩ true
    ⟨1, false, false, [([], 3)]⟩ (by decide) (by decide)

/-- C9: running the one-opcode keep program (no optional operands)
against an always-accepting empty Result collaborator stub calls the
stub's "add keep action" exactly once, with an empty side-effects list
and the source line recorded at compile time for address 0, and the run
reports success with the PC left at `code_size = 1`; and keep's execute
hook fails only when optional-operand decoding fails or the Result
collaborator rejects the action. -/
theorem claim_C9 :
    (∀ (L : Nat → Nat) (s : MState), s.keepCalls = [] →
      sieve_interpreter_run ⟨[5], L, fun _ _ => true⟩ 2 s =
        some (true, ⟨1, false, false, [([], L 0)]⟩)) ∧
    (∀ (P : Prog) (s : MState) (opAddr : Nat),
      cmd_keep_operation_execute P s opAddr = none →
        sieve_interpreter_handle_optional_operands P.code s.pc = none ∨
        (∃ slist addr1,
          sieve_interpreter_handle_optional_operands P.code s.pc = some (slist, addr1) ∧
          P.acceptKeep slist (P.srcLine opAddr) = false)) := by
  constructor
  · intro L s hk
    obtain ⟨pc0, st0, tr0, kc⟩ := s
    simp only [MState.mk.injEq] at hk ⊢
    subst hk
    rfl
  · intro P s opAddr h
    unfold cmd_keep_operation_execute at h
    cases ho : sieve_interpreter_handle_optional_operands P.code s.pc with
    | none => exact Or.inl rfl
    | some pr =>
      obtain ⟨slist, addr1⟩ := pr
      simp only [ho] at h
      by_cases hacc : P.acceptKeep slist (P.srcLine opAddr) = true
      · rw [if_pos hacc] at h
        simp at h
      · rw [if_neg hacc] at h
        exact Or.inr ⟨slist, addr1, rfl, by simpa using hacc⟩

/-- C9 witness: the concrete run with source line 3 recorded for address
0 and a fresh (empty) Result stub. -/
theorem claim_C9_witness :
    sieve_interpreter_run ⟨[5], fun _ => 3, fun _ _ => true⟩ 2 ⟨9, true, true, []⟩ =
      some (true, ⟨1, false, false, [([], 3)]⟩) :=
  claim_C9.1 (fun _ => 3) ⟨9, true, true, []⟩ rfl

/-- C10: whenever a byte is available at the cursor and its value is
strictly below the base offset, `read_extension` succeeds for every
extension index table (so the table is not consulted), consumes exactly
one byte, stores the raw byte through `offset_r` and yields a `NULL`
extension; and with a byte available, the decode fails exactly when the
byte is at or above the base offset and its index is not registered. -/
theorem claim_C10 (tbl : Nat → Option Nat) (code : List Nat) (addr base c : Nat)
    (h : dataAt code addr = some c) :
    (c < base →
      sieve_binary_read_extension tbl code addr base = RdRes.ok (c, none) (addr + 1)) ∧
    (sieve_binary_read_extension tbl code addr base = RdRes.fail ↔
      base ≤ c ∧ tbl (c - base) = none) := by
  constructor
  · intro hlt
    simp [sieve_binary_read_extension, h, Nat.not_le.mpr hlt]
  · by_cases hb : base ≤ c
    · cases htbl : tbl (c - base) <;>
        simp [sieve_binary_read_extension, h, hb, htbl]
    · simp [sieve_binary_read_extension, h, hb]

/-- C10 witness: a byte `2` below the base offset `5` decodes to "no
extension" with the raw byte stored, for a table that would reject the
index. -/
theorem claim_C10_witness :
    (2 < 5 →
      sieve_binary_read_extension (fun _ => none) [2] 0 5 = RdRes.ok (2, none) 1) ∧
    (sieve_binary_read_extension (fun _ => none) [2] 0 5 = RdRes.fail ↔
      5 ≤ 2 ∧ (fun _ => (none : Option Nat)) (2 - 5) = none) :=
  claim_C10 (fun _ => none) [2] 0 5 2 (by decide)

end Sieve
